import Mathlib

/-!
Verification of the netenum enumeration core (src/netenum/core.py).

The development shallowly embeds the code:

* `Network` is the parsed form of one CIDR range (address family, prefix
  length, base address as an integer), as produced by the standard library
  call `ipaddress.ip_network(cidr)` with its default `strict=True`.
* `determine_partition_size` and `create_generator` are direct translations
  of the partition sizer and of the per-network generator built in
  `NetworkEnumerator.__init__`.  A Python generator is represented by the
  list of integers it has yet to yield.
* `riGo`/`runIter` model `NetworkEnumerator.__iter__`: the deque holds the
  indices of the generators in `self.networks`, the generator states are
  threaded explicitly (they are shared, mutable objects in Python).
* `aiGo`/`arunIter` model `NetworkEnumerator.__aiter__` (the
  `await asyncio.sleep(0)` only cedes control and has no effect on the
  produced values, so it leaves no trace in a value-level model).
* `rrGo`/`rrOut` is the same deque discipline expressed directly on the
  queues of pending values; a bridge lemma connects it to `runIter`.
* The CIDR string parser follows CPython `ipaddress`: dotted-quad IPv4,
  RFC-4291 IPv6 text (including `::` compression and an embedded IPv4
  tail), decimal prefix lengths, and the strict host-bits check.  The
  dotted-netmask prefix form and IPv6 zone identifiers are not modelled;
  none of the verified properties depend on them.  AddressValueError and
  NetmaskValueError (which `ip_network` catches before trying the other
  family) are distinguished from the plain ValueError raised by the strict
  host-bits check (which propagates).

Floating point in the source: `math.log2(float(n))`, `math.floor`, and
`math.ceil(float(n)/size)` are only applied with `n` and `size` powers of
two (`n = network.num_addresses = 2^(bits - prefixlen)` and `size` the
partition size, itself a power of two), where they are exact, so they are
rendered with `Nat.log2` and exact ceiling division.
-/

namespace Netenum

/-- Address family of a network or address (IPv4Network/IPv4Address vs
IPv6Network/IPv6Address). -/
inductive Family : Type
  | v4
  | v6
deriving DecidableEq, Repr, Inhabited

/-- Width in bits of an address of the family (IPv432, IPv6 128). -/
def Family.bits : Family → Nat
  | .v4 => 32
  | .v6 => 128

/-- A parsed network, as produced by `ipaddress.ip_network` with
`strict=True`: family, prefix length, and the integer value of
`network_address` (strictness guarantees the host bits are zero). -/
structure Network : Type where
  family : Family
  plen : Nat
  netBase : Nat
deriving DecidableEq, Repr

instance : Inhabited Network := ⟨⟨Family.v4, 0, 0⟩⟩

/-- `network.num_addresses`: for a parsed network this is
`2^(address bits - prefix length)`. -/
def Network.numAddresses (n : Network) : Nat :=
  2 ^ (n.family.bits - n.plen)

/-- Integer value of `network.broadcast_address`: the last address of the
network. -/
def Network.broadcast (n : Network) : Nat :=
  n.netBase + n.numAddresses - 1

/-- Direct translation of `determine_partition_size`.  `num_addresses` is a
power of two, so `math.floor(math.log2(float(num_addresses)) - 8)` equals
`Nat.log2 num_addresses - 8` on the branch where it is evaluated (there
`num_addresses > 256`, hence `log2 ≥ 9 > 8`; similarly for IPv6). -/
def determine_partition_size (network : Network) : Nat :=
  let num_addresses := network.numAddresses
  match network.family with
  | .v4 =>
    if num_addresses ≤ 256 then num_addresses
    else 2 ^ (min (max 8 (Nat.log2 num_addresses - 8)) 10)
  | .v6 =>
    if num_addresses ≤ 65536 then num_addresses
    else 2 ^ (min (max 16 (Nat.log2 num_addresses - 16)) 20)

/-- Direct translation of the `create_generator` closure in
`NetworkEnumerator.__init__`, with the generator represented by the full
list of integers it yields: `num_partitions = ceil(num_addresses / size)`
(exact, both are powers of two), and for each partition `i` the values
`range(start, end)` with `start = base + i*size` and
`end = min(start + size, broadcast_address + 1)`. -/
def create_generator (net : Network) : List Nat :=
  let base := net.netBase
  let size := determine_partition_size net
  let num_partitions := (net.numAddresses + size - 1) / size
  ((List.range num_partitions).map (fun i =>
    let start := base + i * size
    let stop := min (start + size) (net.broadcast + 1)
    List.range' start (stop - start))).flatten

/-! ## CIDR string parsing (model of `ipaddress.ip_network(cidr)`) -/

/-- CPython `ipaddress` raises two kinds of exceptions while parsing:
`addr` stands for AddressValueError/NetmaskValueError, which `ip_network`
catches before trying the other address family, and `value` stands for a
plain ValueError (the strict host-bits check), which propagates. -/
inductive PErr : Type
  | addr (msg : String)
  | value (msg : String)
deriving DecidableEq, Repr

instance {e a : Type} [DecidableEq e] [DecidableEq a] : DecidableEq (Except e a) :=
  fun x y =>
    match x, y with
    | .ok v, .ok w => if h : v = w then .isTrue (by rw [h]) else .isFalse (by simp [h])
    | .error v, .error w => if h : v = w then .isTrue (by rw [h]) else .isFalse (by simp [h])
    | .ok _, .error _ => .isFalse (by simp)
    | .error _, .ok _ => .isFalse (by simp)

/-- Decimal digit test (`str.isdigit` on ASCII input). -/
def isDecDigit (c : Char) : Bool :=
  '0' ≤ c && c ≤ '9'

/-- Hexadecimal digit test (`_HEX_DIGITS`). -/
def isHexDigitC (c : Char) : Bool :=
  isDecDigit c || ('a' ≤ c && c ≤ 'f') || ('A' ≤ c && c ≤ 'F')

/-- Numeric value of a decimal digit. -/
def decVal (c : Char) : Nat :=
  c.toNat - '0'.toNat

/-- Numeric value of a hexadecimal digit. -/
def hexValC (c : Char) : Nat :=
  if isDecDigit c then decVal c
  else if 'a' ≤ c && c ≤ 'f' then c.toNat - 'a'.toNat + 10
  else c.toNat - 'A'.toNat + 10

/-- Value of a decimal digit string (`int(s, 10)` on validated input). -/
def natOfDec (l : List Char) : Nat :=
  l.foldl (fun a c => 10 * a + decVal c) 0

/-- Value of a hexadecimal digit string (`int(s, 16)` on validated input). -/
def natOfHex (l : List Char) : Nat :=
  l.foldl (fun a c => 16 * a + hexValC c) 0

/-- `str.split(sep)` for a one-character separator. -/
def splitOnCh (sep : Char) : List Char → List (List Char)
  | [] => [[]]
  | c :: cs =>
    match splitOnCh sep cs with
    | [] => [[c]]
    | r :: rs => if c = sep then [] :: r :: rs else (c :: r) :: rs

/-- `IPv4Address._parse_octet`: nonempty, decimal digits only, at most three
characters, no leading zero, value at most 255. -/
def parseOctet (l : List Char) : Except PErr Nat :=
  if l.isEmpty then .error (.addr "empty octet not permitted")
  else if !(l.all isDecDigit) then .error (.addr "not a valid octet")
  else if l.length > 3 then .error (.addr "at most 3 characters permitted in octet")
  else if l.length > 1 && l.headD ' ' = '0' then .error (.addr "leading zeros are not permitted")
  else if natOfDec l > 255 then .error (.addr "octet must be in the range 0 to 255")
  else .ok (natOfDec l)

/-- `IPv4Address._ip_int_from_string`: four dot-separated octets, folded
big-endian. -/
def parseV4Int (l : List Char) : Except PErr Nat :=
  if l.isEmpty then .error (.addr "address cannot be empty")
  else
    let octets := splitOnCh '.' l
    if octets.length ≠ 4 then .error (.addr "expected 4 octets")
    else octets.foldlM (fun acc o => do pure (acc * 256 + (← parseOctet o))) 0

/-- `IPv6Address._parse_hextet`: hexadecimal digits only, at most four
characters, nonempty (an empty hextet makes `int` raise, reported as an
address error). -/
def parseHextet (l : List Char) : Except PErr Nat :=
  if !(l.all isHexDigitC) then .error (.addr "not a valid hextet")
  else if l.length > 4 then .error (.addr "at most 4 characters permitted in hextet")
  else if l.isEmpty then .error (.addr "empty hextet")
  else .ok (natOfHex l)

/-- Lowercase hexadecimal digit character. -/
def hexDig (d : Nat) : Char :=
  if d < 10 then Char.ofNat ('0'.toNat + d) else Char.ofNat ('a'.toNat + (d - 10))

/-- CPython `'%x' % n` for `n < 2^16`: lowercase, no leading zeros. -/
def hexRender (n : Nat) : List Char :=
  if n < 16 then [hexDig n]
  else if n < 256 then [hexDig (n / 16), hexDig (n % 16)]
  else if n < 4096 then [hexDig (n / 256), hexDig (n / 16 % 16), hexDig (n % 16)]
  else [hexDig (n / 4096), hexDig (n / 256 % 16), hexDig (n / 16 % 16), hexDig (n % 16)]

/-- Big-endian 16-bit fold of a list of hextet strings, continuing from
`acc` (`ip_int <<= 16; ip_int |= parse_hextet(part)`). -/
def foldHextets (acc : Nat) (parts : List (List Char)) : Except PErr Nat :=
  parts.foldlM (fun a p => do pure (a * 65536 + (← parseHextet p))) acc

/-- `IPv6Address._ip_int_from_string`: split on colons, replace an embedded
IPv4 tail by its two hextets, locate the at-most-one `::`, check the piece
counts, and fold the hextets with the skipped zero groups in between.
IPv6 zone identifiers (`%zone`) are not modelled. -/
def parseV6Int (l : List Char) : Except PErr Nat :=
  if l.isEmpty then .error (.addr "address cannot be empty")
  else
    let parts0 := splitOnCh ':' l
    if parts0.length < 3 then .error (.addr "at least 3 parts expected")
    else do
      let parts ←
        if (parts0.getLastD []).contains '.' then do
          let v4 ← parseV4Int (parts0.getLastD [])
          pure (parts0.dropLast ++ [hexRender (v4 / 65536 % 65536), hexRender (v4 % 65536)])
        else pure parts0
      if parts.length > 9 then throw (.addr "at most 8 colons permitted")
      else
        let skips := (((List.range (parts.length - 1)).drop 1).filter
          (fun i => (parts.getD i []).isEmpty))
        match skips with
        | [] =>
          if parts.length ≠ 8 then throw (.addr "exactly 8 parts expected without double colon")
          else if (parts.headD []).isEmpty then throw (.addr "leading colon only permitted as part of double colon")
          else if (parts.getLastD []).isEmpty then throw (.addr "trailing colon only permitted as part of double colon")
          else foldHextets 0 parts
        | [i] =>
          let hi0 := i
          let lo0 := parts.length - i - 1
          let hi := if (parts.headD []).isEmpty then hi0 - 1 else hi0
          if (parts.headD []).isEmpty && hi ≠ 0 then
            throw (.addr "leading colon only permitted as part of double colon")
          else
            let lo := if (parts.getLastD []).isEmpty then lo0 - 1 else lo0
            if (parts.getLastD []).isEmpty && lo ≠ 0 then
              throw (.addr "trailing colon only permitted as part of double colon")
            else if 8 - (hi + lo) < 1 then
              throw (.addr "expected at most 7 other parts with a double colon")
            else do
              let hiV ← foldHextets 0 (parts.take hi)
              foldHextets (hiV * 65536 ^ (8 - (hi + lo))) (parts.drop (parts.length - lo))
        | _ :: _ :: _ => throw (.addr "at most one double colon permitted")

/-- `_prefix_from_prefix_string` (via `_make_netmask`): decimal digits
only, value at most the family width.  The dotted-netmask fallback form is
not modelled. -/
def parsePrefixLen (l : List Char) (maxLen : Nat) : Except PErr Nat :=
  if l.isEmpty || !(l.all isDecDigit) then .error (.addr "netmask format not recognized")
  else if natOfDec l > maxLen then .error (.addr "prefix length out of range")
  else .ok (natOfDec l)

/-- `_split_addr_prefix`: split on the slashes; one part means the full
prefix length of the family, more than two parts is an error. -/
def splitAddrMask (l : List Char) : Except PErr (List Char × Option (List Char)) :=
  match splitOnCh '/' l with
  | [a] => .ok (a, none)
  | [a, p] => .ok (a, some p)
  | _ => .error (.addr "only one slash permitted")

/-- The tail of `IPv4Network.__init__` after the address and prefix length
are parsed: with `strict=True` a set host bit raises a plain ValueError,
otherwise the network is the parsed pair (no normalization is needed, the
address already equals the base). -/
def ipv4NetworkStrict (addrInt plen : Nat) : Except PErr Network :=
  if addrInt % 2 ^ (32 - plen) ≠ 0 then .error (.value "has host bits set")
  else .ok ⟨Family.v4, plen, addrInt⟩

/-- The tail of `IPv6Network.__init__` after parsing, as for IPv4. -/
def ipv6NetworkStrict (addrInt plen : Nat) : Except PErr Network :=
  if addrInt % 2 ^ (128 - plen) ≠ 0 then .error (.value "has host bits set")
  else .ok ⟨Family.v6, plen, addrInt⟩

/-- `IPv4Network(s, strict=True)` for a string argument: parse address and
prefix length, then the strict host-bits check. -/
def ipv4NetworkOfString (l : List Char) : Except PErr Network := do
  let (a, p) ← splitAddrMask l
  let addrInt ← parseV4Int a
  let plen ← match p with
    | none => pure 32
    | some ps => parsePrefixLen ps 32
  ipv4NetworkStrict addrInt plen

/-- `IPv6Network(s, strict=True)` for a string argument. -/
def ipv6NetworkOfString (l : List Char) : Except PErr Network := do
  let (a, p) ← splitAddrMask l
  let addrInt ← parseV6Int a
  let plen ← match p with
    | none => pure 128
    | some ps => parsePrefixLen ps 128
  ipv6NetworkStrict addrInt plen

/-- `ipaddress.ip_network(s)` with the default `strict=True`:
try `IPv4Network`, catching only AddressValueError/NetmaskValueError, then
`IPv6Network` likewise; a plain ValueError (strict host-bits check)
propagates immediately. -/
def ip_network (s : String) : Except String Network :=
  match ipv4NetworkOfString s.data with
  | .ok n => .ok n
  | .error (.value m) => .error m
  | .error (.addr _) =>
    match ipv6NetworkOfString s.data with
    | .ok n => .ok n
    | .error (.value m) => .error m
    | .error (.addr _) => .error "does not appear to be an IPv4 or IPv6 network"

/-! ## Address rendering (`str(IPv4Address(n))`, `str(IPv6Address(n))`) -/

/-- Decimal rendering of an octet value (`'%d'` for `n < 1000`). -/
def decRender (n : Nat) : List Char :=
  let dig := fun d => Char.ofNat ('0'.toNat + d)
  if n < 10 then [dig n]
  else if n < 100 then [dig (n / 10), dig (n % 10)]
  else [dig (n / 100), dig (n / 10 % 10), dig (n % 10)]

/-- `sep.join(parts)` for a one-character separator. -/
def joinSep (sep : Char) : List (List Char) → List Char
  | [] => []
  | [x] => x
  | x :: y :: xs => x ++ sep :: joinSep sep (y :: xs)

/-- `str` of an IPv4 address integer: dotted quad. -/
def v4Render (a : Nat) : String :=
  String.mk (joinSep '.'
    ([a / 16777216 % 256, a / 65536 % 256, a / 256 % 256, a % 256].map decRender))

/-- The eight 16-bit groups of an IPv6 address integer, most significant
first. -/
def hextets8 (a : Nat) : List Nat :=
  [a / 65536 ^ 7 % 65536, a / 65536 ^ 6 % 65536, a / 65536 ^ 5 % 65536,
   a / 65536 ^ 4 % 65536, a / 65536 ^ 3 % 65536, a / 65536 ^ 2 % 65536,
   a / 65536 % 65536, a % 65536]

/-- The scan inside `_compress_hextets`: running over the rendered groups,
find the start and length of the longest (leftmost on ties) run of `"0"`
groups.  State: best start, best length, current start, current length. -/
def bestZeroRun (hx : List (List Char)) : Nat × Nat :=
  let st := hx.enum.foldl
    (fun (st : Nat × Nat × Nat × Nat) (p : Nat × List Char) =>
      let (bs, bl, cs, cl) := st
      if p.2 = ['0'] then
        let cs2 := if cl = 0 then p.1 else cs
        let cl2 := cl + 1
        if cl2 > bl then (cs2, cl2, cs2, cl2) else (bs, bl, cs2, cl2)
      else (bs, bl, 0, 0))
    (0, 0, 0, 0)
  (st.1, st.2.1)

/-- `_compress_hextets`: replace the best run of zero groups (if longer
than one) by an empty group, padding with empty groups at either end so the
join produces `::`. -/
def compressHextets (hx : List (List Char)) : List (List Char) :=
  let (bs, bl) := bestZeroRun hx
  if bl > 1 then
    let be := bs + bl
    let hx1 := if be = hx.length then hx ++ [[]] else hx
    let hx2 := hx1.take bs ++ [] :: hx1.drop be
    if bs = 0 then [] :: hx2 else hx2
  else hx

/-- `str` of an IPv6 address integer (`_string_from_ip_int` followed by the
compression step). -/
def v6Render (a : Nat) : String :=
  String.mk (joinSep ':' (compressHextets ((hextets8 a).map hexRender)))

/-- `str(addr)` for an emitted address: the enumerator tags each integer
with its family (`addr_class` in the source). -/
def renderAddress : Family × Nat → String
  | (.v4, a) => v4Render a
  | (.v6, a) => v6Render a

end Netenum

namespace Netenum

/-! ## The striping scheduler (`NetworkEnumerator.__iter__` / `__aiter__`)

`__iter__` copies `self.networks` into a deque and repeatedly looks at the
front pair `(gen, addr_class)`: if `next(gen)` succeeds the address is
yielded and the deque is rotated by one, on `StopIteration` the front entry
is popped.  The generators are mutable objects owned by the session
(`self.networks`), shared by every iterator taken from it, so the model
threads their states explicitly: `gens` maps each generator to the list of
values it has yet to yield, and the deque holds indices into `gens`.

Each step consumes one unit of the measure `total pending values + deque
length`, so running with exactly that much fuel is a faithful rendering of
the unbounded `while active_gens:` loop. -/

/-- One generator of the session together with its `addr_class` tag. -/
abbrev Gen : Type := List Nat × Family

/-- Fueled deque loop of `__iter__`.  Returns the emitted `(addr_class,
addr_int)` pairs and the final generator states. -/
def riGo : Nat → List Gen → List Nat → List (Family × Nat) × List Gen
  | 0, gens, _ => ([], gens)
  | _, gens, [] => ([], gens)
  | fuel + 1, gens, d :: rest =>
    match gens.getD d ([], Family.v4) with
    | ([], _) => riGo fuel gens rest
    | (a :: as, fam) =>
      let gens' := gens.set d (as, fam)
      let r := riGo fuel gens' (rest ++ [d])
      ((fam, a) :: r.1, r.2)

/-- Fuel sufficient to drive the deque loop to completion. -/
def riMeasure (gens : List Gen) (dq : List Nat) : Nat :=
  (gens.map (fun g => g.1.length)).sum + dq.length

/-- A full run of `__iter__` over the session state `gens`, pulling until
the deque `dq` is empty: the emitted addresses and the final (mutated)
generator states. -/
def runIter (gens : List Gen) (dq : List Nat) : List (Family × Nat) × List Gen :=
  riGo (riMeasure gens dq) gens dq

/-- Fueled deque loop of `__aiter__`.  The body is that of `riGo`; the
`await asyncio.sleep(0)` executed after each rotation cedes control to the
event loop and contributes nothing to the value-level behavior. -/
def aiGo : Nat → List Gen → List Nat → List (Family × Nat) × List Gen
  | 0, gens, _ => ([], gens)
  | _, gens, [] => ([], gens)
  | fuel + 1, gens, d :: rest =>
    match gens.getD d ([], Family.v4) with
    | ([], _) => aiGo fuel gens rest
    | (a :: as, fam) =>
      let gens' := gens.set d (as, fam)
      let r := aiGo fuel gens' (rest ++ [d])
      ((fam, a) :: r.1, r.2)

/-- A full run of `__aiter__`, analogous to `runIter`. -/
def arunIter (gens : List Gen) (dq : List Nat) : List (Family × Nat) × List Gen :=
  aiGo (riMeasure gens dq) gens dq

/-- The same deque discipline expressed directly on queues of pending
values: emit the head of the front queue and rotate it to the back, drop
the front queue when it is exhausted. -/
def rrGo {α : Type} : Nat → List (List α) → List α
  | 0, _ => []
  | _, [] => []
  | fuel + 1, [] :: rest => rrGo fuel rest
  | fuel + 1, (a :: as) :: rest => a :: rrGo fuel (rest ++ [as])

/-- Fuel sufficient to drive `rrGo` to completion. -/
def rrMeasure {α : Type} (qs : List (List α)) : Nat :=
  (qs.map List.length).sum + qs.length

/-- Round-robin interleaving of the queues `qs`, running to exhaustion. -/
def rrOut {α : Type} (qs : List (List α)) : List α :=
  rrGo (rrMeasure qs) qs

/-! ## The session (`NetworkEnumerator.__init__` and the entry points) -/

/-- The parsing pass of `__init__`: each CIDR string through `ip_network`,
in order, aborting at the first failure. -/
def parseNetworks : List String → Except String (List Network)
  | [] => .ok []
  | c :: cs =>
    match ip_network c with
    | .error e => .error e
    | .ok net =>
      match parseNetworks cs with
      | .error e => .error e
      | .ok rest => .ok (net :: rest)

/-- `NetworkEnumerator.__init__`: for each CIDR string in order, parse it
and pair the freshly created generator with the `addr_class` of the
network's family; `self.networks` is the resulting list.  Any parse
failure aborts the whole construction. -/
def initNetworks : List String → Except String (List Gen)
  | [] => .ok []
  | c :: cs =>
    match ip_network c with
    | .error e => .error e
    | .ok net =>
      match initNetworks cs with
      | .error e => .error e
      | .ok rest => .ok ((create_generator net, net.family) :: rest)

/-- `list(netenum(cidrs))`: construct the session, then run `__iter__` to
exhaustion over a deque of all its generators. -/
def netenumOut (cidrs : List String) : Except String (List (Family × Nat)) :=
  (initNetworks cidrs).map (fun gens => (runIter gens (List.range gens.length)).1)

/-- The queues of the session for the parsed networks `nets`, with each
pending address tagged by the index of its originating network (the index
is ghost information used to state the partition-by-origin properties). -/
def taggedQueues (nets : List Network) : List (List (Nat × Nat)) :=
  (List.range nets.length).map
    (fun i => (create_generator (nets.getD i default)).map (fun a => (i, a)))

/-- The queues of the session with each pending address tagged only by its
`addr_class`, exactly the data `__iter__` emits. -/
def famQueues (nets : List Network) : List (List (Family × Nat)) :=
  nets.map (fun net => (create_generator net).map (fun a => (net.family, a)))

end Netenum

namespace Netenum

/-! ## The per-network generator yields exactly the network's range -/

theorem psize_pos (net : Network) : 0 < determine_partition_size net := by
  rcases net with ⟨fam, p, b⟩
  cases fam <;>
    simp only [determine_partition_size, Network.numAddresses, Family.bits] <;>
    split <;> positivity

theorem numAddresses_pos (net : Network) : 0 < net.numAddresses :=
  pow_pos (by norm_num) _

theorem ceil_mul_ge (num size : Nat) (hs : 0 < size) :
    num ≤ (num + size - 1) / size * size := by
  have h := Nat.div_add_mod (num + size - 1) size
  have h2 : (num + size - 1) % size < size := Nat.mod_lt _ hs
  have h3 : size * ((num + size - 1) / size) = (num + size - 1) / size * size :=
    Nat.mul_comm _ _
  omega

theorem flatten_chunks (base num size : Nat) (hs : 0 < size) (P : Nat) :
    ((List.range P).map (fun i =>
      List.range' (base + i * size)
        (min (base + i * size + size) (base + num) - (base + i * size)))).flatten
    = List.range' base (min (P * size) num) := by
  induction P with
  | zero => simp
  | succ P ih =>
    rw [List.range_succ, List.map_append, List.flatten_append, ih]
    simp only [List.map_cons, List.map_nil, List.flatten_cons, List.flatten_nil,
      List.append_nil]
    have hmul : (P + 1) * size = P * size + size := by ring
    rcases le_or_lt num (P * size) with h | h
    · have h1 : min (P * size) num = num := by omega
      have h2 : min (base + P * size + size) (base + num) - (base + P * size) = 0 := by
        omega
      have h3 : min ((P + 1) * size) num = num := by omega
      rw [h1, h2, h3]
      simp
    · have h1 : min (P * size) num = P * size := by omega
      have h2 : min (base + P * size + size) (base + num) - (base + P * size)
          = min size (num - P * size) := by omega
      rw [h1, h2]
      have ha := List.range'_append base (P * size) (min size (num - P * size)) 1
      rw [one_mul] at ha
      rw [ha]
      congr 1
      omega

/-- The two-level partition structure of `create_generator` is invisible
from outside: the generator yields exactly the addresses of the network,
in ascending order. -/
theorem create_generator_eq (net : Network) :
    create_generator net = List.range' net.netBase net.numAddresses := by
  have hs := psize_pos net
  have hnum := numAddresses_pos net
  have hb : net.broadcast + 1 = net.netBase + net.numAddresses := by
    unfold Network.broadcast
    omega
  unfold create_generator
  rw [hb]
  rw [flatten_chunks _ _ _ hs]
  congr 1
  have := ceil_mul_ge net.numAddresses (determine_partition_size net) hs
  omega

end Netenum

namespace Netenum

/-! ## Fuel adequacy: the fueled loops compute the unbounded `while` loops -/

theorem rrMeasure_nil_cons {α : Type} (rest : List (List α)) :
    rrMeasure (([] : List α) :: rest) = rrMeasure rest + 1 := by
  simp [rrMeasure]
  omega

theorem rrMeasure_cons_cons {α : Type} (a : α) (as : List α) (rest : List (List α)) :
    rrMeasure ((a :: as) :: rest) = rrMeasure (rest ++ [as]) + 1 := by
  simp [rrMeasure]
  omega

theorem rrMeasure_zero {α : Type} (qs : List (List α)) (h : rrMeasure qs = 0) :
    qs = [] := by
  cases qs with
  | nil => rfl
  | cons q rest => simp [rrMeasure] at h

theorem rrGo_congr {α : Type} :
    ∀ (f g : Nat) (qs : List (List α)), rrMeasure qs ≤ f → rrMeasure qs ≤ g →
      rrGo f qs = rrGo g qs := by
  intro f
  induction f with
  | zero =>
    intro g qs hf _
    have : qs = [] := rrMeasure_zero qs (by omega)
    subst this
    cases g <;> rfl
  | succ f ih =>
    intro g qs hf hg
    cases qs with
    | nil => cases g <;> rfl
    | cons q rest =>
      have hpos : 1 ≤ rrMeasure (q :: rest) := by
        cases q
        · rw [rrMeasure_nil_cons]; omega
        · rw [rrMeasure_cons_cons]; omega
      obtain ⟨g', rfl⟩ : ∃ g', g = g' + 1 := ⟨g - 1, by omega⟩
      cases q with
      | nil =>
        show rrGo f rest = rrGo g' rest
        rw [rrMeasure_nil_cons] at hf hg
        exact ih g' rest (by omega) (by omega)
      | cons a as =>
        show a :: rrGo f (rest ++ [as]) = a :: rrGo g' (rest ++ [as])
        rw [rrMeasure_cons_cons] at hf hg
        rw [ih g' (rest ++ [as]) (by omega) (by omega)]

theorem rrOut_nil {α : Type} : rrOut ([] : List (List α)) = [] := rfl

theorem rrOut_nil_cons {α : Type} (rest : List (List α)) :
    rrOut (([] : List α) :: rest) = rrOut rest := by
  unfold rrOut
  rw [rrMeasure_nil_cons]
  rfl

theorem rrOut_cons {α : Type} (a : α) (as : List α) (rest : List (List α)) :
    rrOut ((a :: as) :: rest) = a :: rrOut (rest ++ [as]) := by
  unfold rrOut
  rw [rrMeasure_cons_cons]
  rfl

end Netenum

namespace Netenum


theorem getD_oob (gens : List Gen) (d : Nat) (h : gens.length ≤ d) :
    gens.getD d ([], Family.v4) = ([], Family.v4) := by
  simp [List.getD_eq_getElem?_getD, List.getElem?_eq_none h]

theorem sumLen_set (gens : List Gen) (d : Nat) (x : Gen) (h : d < gens.length) :
    ((gens.set d x).map (fun g => g.1.length)).sum
      + (gens.getD d ([], Family.v4)).1.length
    = (gens.map (fun g => g.1.length)).sum + x.1.length := by
  induction gens generalizing d with
  | nil => simp at h
  | cons g gs ih =>
    cases d with
    | zero => simp [List.set, List.getD]; omega
    | succ d =>
      simp only [List.set, List.map_cons, List.sum_cons, List.getD_cons_succ]
      have := ih d (by simpa using h)
      omega

theorem front_index_lt (gens : List Gen) (d : Nat) (a : Nat) (as : List Nat)
    (fam : Family) (h : gens.getD d ([], Family.v4) = (a :: as, fam)) :
    d < gens.length := by
  by_contra hge
  rw [getD_oob gens d (by omega)] at h
  simp at h

theorem riMeasure_front_nil (gens : List Gen) (d : Nat) (rest : List Nat) :
    riMeasure gens (d :: rest) = riMeasure gens rest + 1 := by
  simp [riMeasure]
  omega

theorem riMeasure_front_cons (gens : List Gen) (d : Nat) (rest : List Nat)
    (a : Nat) (as : List Nat) (fam : Family)
    (h : gens.getD d ([], Family.v4) = (a :: as, fam)) :
    riMeasure gens (d :: rest)
      = riMeasure (gens.set d (as, fam)) (rest ++ [d]) + 1 := by
  have hd := front_index_lt gens d a as fam h
  have hs := sumLen_set gens d (as, fam) hd
  rw [h] at hs
  simp only [List.length_cons] at hs
  simp only [riMeasure, List.length_append, List.length_cons, List.length_nil]
  omega

theorem riMeasure_zero_dq (gens : List Gen) (dq : List Nat)
    (h : riMeasure gens dq = 0) : dq = [] := by
  cases dq with
  | nil => rfl
  | cons d rest => simp [riMeasure] at h

theorem riGo_congr :
    ∀ (f g : Nat) (gens : List Gen) (dq : List Nat),
      riMeasure gens dq ≤ f → riMeasure gens dq ≤ g →
      riGo f gens dq = riGo g gens dq := by
  intro f
  induction f with
  | zero =>
    intro g gens dq hf _
    have : dq = [] := riMeasure_zero_dq gens dq (by omega)
    subst this
    cases g <;> rfl
  | succ f ih =>
    intro g gens dq hf hg
    cases dq with
    | nil => cases g <;> rfl
    | cons d rest =>
      have hpos : 1 ≤ riMeasure gens (d :: rest) := by
        simp [riMeasure]
        omega
      obtain ⟨g', rfl⟩ : ∃ g', g = g' + 1 := ⟨g - 1, by omega⟩
      cases hq : gens.getD d ([], Family.v4) with
      | mk q fam =>
        cases q with
        | nil =>
          simp only [riGo, hq]
          rw [riMeasure_front_nil] at hf hg
          exact ih g' gens rest (by omega) (by omega)
        | cons a as =>
          simp only [riGo, hq]
          rw [riMeasure_front_cons gens d rest a as fam hq] at hf hg
          rw [ih g' (gens.set d (as, fam)) (rest ++ [d]) (by omega) (by omega)]

theorem runIter_nil (gens : List Gen) : runIter gens [] = ([], gens) := by
  unfold runIter
  cases h : riMeasure gens [] <;> rfl

theorem runIter_front_nil (gens : List Gen) (d : Nat) (rest : List Nat) (fam : Family)
    (h : gens.getD d ([], Family.v4) = ([], fam)) :
    runIter gens (d :: rest) = runIter gens rest := by
  unfold runIter
  rw [riMeasure_front_nil]
  simp only [riGo, h]

theorem runIter_front_cons (gens : List Gen) (d : Nat) (rest : List Nat)
    (a : Nat) (as : List Nat) (fam : Family)
    (h : gens.getD d ([], Family.v4) = (a :: as, fam)) :
    runIter gens (d :: rest)
      = ((fam, a) :: (runIter (gens.set d (as, fam)) (rest ++ [d])).1,
         (runIter (gens.set d (as, fam)) (rest ++ [d])).2) := by
  unfold runIter
  rw [riMeasure_front_cons gens d rest a as fam h]
  simp only [riGo, h]

theorem aiGo_eq_riGo :
    ∀ (f : Nat) (gens : List Gen) (dq : List Nat), aiGo f gens dq = riGo f gens dq := by
  intro f
  induction f with
  | zero => intro gens dq; cases dq <;> rfl
  | succ f ih =>
    intro gens dq
    cases dq with
    | nil => rfl
    | cons d rest =>
      cases hq : gens.getD d ([], Family.v4) with
      | mk q fam =>
        cases q with
        | nil =>
          simp only [aiGo, riGo, hq]
          exact ih gens rest
        | cons a as =>
          simp only [aiGo, riGo, hq]
          rw [ih]

theorem arunIter_eq_runIter (gens : List Gen) (dq : List Nat) :
    arunIter gens dq = runIter gens dq :=
  aiGo_eq_riGo _ gens dq

theorem rrMeasure_append_singleton {α : Type} (rest : List (List α)) (as : List α) :
    rrMeasure (rest ++ [as]) = rrMeasure rest + as.length + 1 := by
  simp [rrMeasure]
  omega

/-- The scheduler emits a permutation of all pending values. -/
theorem rrOut_perm {α : Type} (qs : List (List α)) : List.Perm (rrOut qs) qs.flatten := by
  suffices H : ∀ (m : Nat) (qs : List (List α)), rrMeasure qs ≤ m → List.Perm (rrOut qs) qs.flatten from
    H _ qs le_rfl
  intro m
  induction m with
  | zero =>
    intro qs h
    have := rrMeasure_zero qs (by omega)
    subst this
    simp [rrOut_nil]
  | succ m ih =>
    intro qs h
    cases qs with
    | nil => simp [rrOut_nil]
    | cons q rest =>
      cases q with
      | nil =>
        rw [rrOut_nil_cons, List.flatten_cons, List.nil_append]
        exact ih rest (by rw [rrMeasure_nil_cons] at h; omega)
      | cons a as =>
        rw [rrOut_cons, List.flatten_cons]
        have h1 : List.Perm (rrOut (rest ++ [as])) ((rest ++ [as]).flatten) :=
          ih (rest ++ [as]) (by rw [rrMeasure_cons_cons] at h; omega)
        have h2 : List.Perm (a :: rrOut (rest ++ [as])) (a :: (rest.flatten ++ as)) := by
          have := h1.cons a
          simpa using this
        have h3 : List.Perm (a :: (rest.flatten ++ as)) ((a :: as) ++ rest.flatten) := by
          have : List.Perm (rest.flatten ++ as) (as ++ rest.flatten) := List.perm_append_comm
          simpa using this.cons a
        exact h2.trans h3

/-- The scheduler emits exactly as many values as are pending. -/
theorem rrOut_length {α : Type} (qs : List (List α)) :
    (rrOut qs).length = (qs.map List.length).sum := by
  rw [(rrOut_perm qs).length_eq]
  exact List.length_flatten qs

/-- A single queue is emitted as it stands. -/
theorem rrOut_singleton {α : Type} (q : List α) : rrOut [q] = q := by
  induction q with
  | nil => rw [rrOut_nil_cons, rrOut_nil]
  | cons a as ih => rw [rrOut_cons, List.nil_append, ih]

/-- The scheduler is oblivious to the values: mapping the elements commutes
with interleaving. -/
theorem rrOut_map {α β : Type} (f : α → β) (qs : List (List α)) :
    rrOut (qs.map (List.map f)) = (rrOut qs).map f := by
  suffices H : ∀ (m : Nat) (qs : List (List α)), rrMeasure qs ≤ m →
      rrOut (qs.map (List.map f)) = (rrOut qs).map f from H _ qs le_rfl
  intro m
  induction m with
  | zero =>
    intro qs h
    have := rrMeasure_zero qs (by omega)
    subst this
    simp [rrOut_nil]
  | succ m ih =>
    intro qs h
    cases qs with
    | nil => simp [rrOut_nil]
    | cons q rest =>
      cases q with
      | nil =>
        simp only [List.map_cons, List.map_nil]
        rw [rrOut_nil_cons, rrOut_nil_cons]
        exact ih rest (by rw [rrMeasure_nil_cons] at h; omega)
      | cons a as =>
        simp only [List.map_cons]
        rw [rrOut_cons, rrOut_cons, List.map_cons]
        have h1 := ih (rest ++ [as]) (by rw [rrMeasure_cons_cons] at h; omega)
        rw [← h1]
        simp [List.map_append]

/-- If all pending values satisfying the predicate live in at most one
queue (each queue being homogeneous for the predicate), filtering the
interleaved output recovers the concatenation of the per-queue filters. -/
theorem rrOut_filter {α : Type} (p : α → Bool) :
    ∀ (qs : List (List α)),
      (∀ q ∈ qs, (∀ x ∈ q, p x = true) ∨ (∀ x ∈ q, p x = false)) →
      qs.Pairwise (fun q1 q2 => (∀ x ∈ q1, p x = false) ∨ (∀ x ∈ q2, p x = false)) →
      (rrOut qs).filter p = (qs.map (List.filter p)).flatten := by
  suffices H : ∀ (m : Nat) (qs : List (List α)), rrMeasure qs ≤ m →
      (∀ q ∈ qs, (∀ x ∈ q, p x = true) ∨ (∀ x ∈ q, p x = false)) →
      qs.Pairwise (fun q1 q2 => (∀ x ∈ q1, p x = false) ∨ (∀ x ∈ q2, p x = false)) →
      (rrOut qs).filter p = (qs.map (List.filter p)).flatten by
    exact fun qs => H _ qs le_rfl
  intro m
  induction m with
  | zero =>
    intro qs h _ _
    have := rrMeasure_zero qs (by omega)
    subst this
    simp [rrOut_nil]
  | succ m ih =>
    intro qs h hhom hpair
    cases qs with
    | nil => simp [rrOut_nil]
    | cons q rest =>
      cases q with
      | nil =>
        rw [rrOut_nil_cons]
        simp only [List.map_cons, List.flatten_cons, List.filter_nil, List.nil_append]
        exact ih rest (by rw [rrMeasure_nil_cons] at h; omega)
          (fun q hq => hhom q (by simp [hq]))
          (List.Pairwise.of_cons hpair)
      | cons a as =>
        have hmem : rrMeasure (rest ++ [as]) ≤ m := by
          rw [rrMeasure_cons_cons] at h; omega
        have hq := hhom (a :: as) (by simp)
        rw [rrOut_cons, List.filter_cons]
        rcases hq with hq | hq
        · -- the front queue is the one holding the tracked values; every
          -- other queue is free of them
          have ha : p a = true := hq a (by simp)
          have hrest : ∀ r ∈ rest, ∀ x ∈ r, p x = false := by
            intro r hr x hx
            have := (List.pairwise_cons.mp hpair).1 r hr
            rcases this with hfc | hfc
            · exact absurd (hfc a (by simp)) (by simp [ha])
            · exact hfc x hx
          have ihr := ih (rest ++ [as]) hmem
            (by
              intro r hr
              rcases List.mem_append.mp hr with hr | hr
              · exact Or.inr (hrest r hr)
              · simp only [List.mem_singleton] at hr
                subst hr
                exact Or.inl (fun x hx => hq x (by simp [hx])))
            (by
              rw [List.pairwise_append]
              refine ⟨(List.Pairwise.of_cons hpair), by simp, ?_⟩
              intro r hr r2 hr2
              exact Or.inl (hrest r hr))
          rw [ha, ihr]
          simp only [List.map_append, List.map_cons, List.map_nil, List.flatten_append,
            List.flatten_cons, List.flatten_nil, List.append_nil, List.filter_cons, ha,
            List.map_cons]
          -- both sides reduce to a :: as.filter p, since the rest contributes nothing
          have hre : (rest.map (List.filter p)).flatten = [] := by
            rw [List.flatten_eq_nil_iff]
            intro l hl
            rcases List.mem_map.mp hl with ⟨r, hr, rfl⟩
            rw [List.filter_eq_nil_iff]
            intro x hx
            simp [hrest r hr x hx]
          rw [hre]
          simp
        · -- the front queue is free of tracked values
          have ha : p a = false := hq a (by simp)
          have ihr := ih (rest ++ [as]) hmem
            (by
              intro r hr
              rcases List.mem_append.mp hr with hr | hr
              · exact hhom r (by simp [hr])
              · simp only [List.mem_singleton] at hr
                subst hr
                exact Or.inr (fun x hx => hq x (by simp [hx])))
            (by
              rw [List.pairwise_append]
              refine ⟨(List.Pairwise.of_cons hpair), by simp, ?_⟩
              intro r hr r2 hr2
              simp only [List.mem_singleton] at hr2
              subst hr2
              exact Or.inr (fun x hx => hq x (by simp [hx])))
          rw [ha, ihr]
          simp only [List.map_append, List.map_cons, List.map_nil, List.flatten_append,
            List.flatten_cons, List.flatten_nil, List.append_nil, List.filter_cons, ha]
          -- the front queue filters to nothing
          have hfq : as.filter p = [] := by
            rw [List.filter_eq_nil_iff]
            intro x hx
            simp [hq x (by simp [hx])]
          rw [hfq]
          simp

/-- Rotating invariant behind the round-robin property: the queues still to
be visited in this round (`front`, all live) contribute their heads in
order, after which the next round starts from the queues already rotated to
the back (`back`) followed by the visited queues' tails. -/
theorem rrOut_round_aux {α : Type} [Inhabited α] :
    ∀ (front back : List (List α)), (∀ q ∈ front, q ≠ []) →
      rrOut (front ++ back)
        = front.map List.headI ++ rrOut (back ++ front.map List.tail) := by
  intro front
  induction front with
  | nil => intro back _; simp
  | cons q fs ih =>
    intro back hne
    cases q with
    | nil => exact absurd rfl (hne [] (by simp))
    | cons a as =>
      rw [List.cons_append, rrOut_cons, List.append_assoc]
      rw [ih (back ++ [as]) (fun q hq => hne q (by simp [hq]))]
      simp [List.append_assoc]

/-- One full round over live queues: the heads in construction order, then
the interleaving of the tails. -/
theorem rrOut_round {α : Type} [Inhabited α] (qs : List (List α))
    (h : ∀ q ∈ qs, q ≠ []) :
    rrOut qs = qs.map List.headI ++ rrOut (qs.map List.tail) := by
  have := rrOut_round_aux qs [] h
  simpa using this

/-- The first `N` emitted values are the heads of the `N` live queues, in
construction order. -/
theorem rrOut_take_heads {α : Type} [Inhabited α] (qs : List (List α))
    (h : ∀ q ∈ qs, q ≠ []) :
    (rrOut qs).take qs.length = qs.map List.headI := by
  rw [rrOut_round qs h]
  have hl : (qs.map (List.headI : List α → α)).length = qs.length := by simp
  rw [← hl, List.take_left]

theorem rrOut_eq_nil_of_all_nil {α : Type} (qs : List (List α))
    (h : ∀ q ∈ qs, q = []) : rrOut qs = [] := by
  have hp := rrOut_perm qs
  have hf : qs.flatten = [] := by
    rw [List.flatten_eq_nil_iff]
    exact h
  rw [hf] at hp
  exact hp.eq_nil

theorem getD_set_self (gens : List Gen) (d : Nat) (x : Gen) (h : d < gens.length) :
    (gens.set d x).getD d ([], Family.v4) = x := by
  induction gens generalizing d with
  | nil => simp at h
  | cons g gs ih =>
    cases d with
    | zero => rfl
    | succ d => exact ih d (by simpa using h)

theorem getD_set_ne (gens : List Gen) (d e : Nat) (x : Gen) (h : d ≠ e) :
    (gens.set d x).getD e ([], Family.v4) = gens.getD e ([], Family.v4) := by
  induction gens generalizing d e with
  | nil => simp
  | cons g gs ih =>
    cases d with
    | zero =>
      cases e with
      | zero => exact absurd rfl h
      | succ e => rfl
    | succ d =>
      cases e with
      | zero => rfl
      | succ e => exact ih d e (by omega)

/-- The queue of pending tagged values behind deque entry `d`. -/
def queueOf (gens : List Gen) (d : Nat) : List (Family × Nat) :=
  ((gens.getD d ([], Family.v4)).1).map
    (fun a => ((gens.getD d ([], Family.v4)).2, a))

/-- Bridge between the stateful deque loop of `__iter__` and the pure
queue interleaving: as long as the deque holds distinct generator indices
(as it does, being initialized with one entry per generator), the loop
emits exactly the round-robin interleaving of the pending queues. -/
theorem runIter_fst_eq_rrOut :
    ∀ (gens : List Gen) (dq : List Nat), dq.Nodup →
      (runIter gens dq).1 = rrOut (dq.map (queueOf gens)) := by
  suffices H : ∀ (m : Nat) (gens : List Gen) (dq : List Nat), riMeasure gens dq ≤ m →
      dq.Nodup → (runIter gens dq).1 = rrOut (dq.map (queueOf gens)) by
    exact fun gens dq => H _ gens dq le_rfl
  intro m
  induction m with
  | zero =>
    intro gens dq h _
    have := riMeasure_zero_dq gens dq (by omega)
    subst this
    rw [runIter_nil]
    rfl
  | succ m ih =>
    intro gens dq h hnd
    cases dq with
    | nil =>
      rw [runIter_nil]
      rfl
    | cons d rest =>
      cases hq : gens.getD d ([], Family.v4) with
      | mk q fam =>
        cases q with
        | nil =>
          rw [runIter_front_nil gens d rest fam hq]
          rw [riMeasure_front_nil] at h
          rw [ih gens rest (by omega) (List.Nodup.of_cons hnd)]
          have : queueOf gens d = [] := by
            unfold queueOf
            rw [hq]
            simp
          rw [List.map_cons, this, rrOut_nil_cons]
        | cons a as =>
          rw [runIter_front_cons gens d rest a as fam hq]
          rw [riMeasure_front_cons gens d rest a as fam hq] at h
          have hndr : (rest ++ [d]).Nodup := by
            have h1 := List.nodup_cons.mp hnd
            rw [List.nodup_append]
            exact ⟨h1.2, List.nodup_singleton d,
              by simpa [List.disjoint_singleton] using h1.1⟩
          rw [ih (gens.set d (as, fam)) (rest ++ [d]) (by omega) hndr]
          have hdlt := front_index_lt gens d a as fam hq
          have hqe : ∀ e ∈ rest, queueOf (gens.set d (as, fam)) e = queueOf gens e := by
            intro e he
            have hne : d ≠ e := by
              intro hc
              subst hc
              exact (List.nodup_cons.mp hnd).1 he
            unfold queueOf
            rw [getD_set_ne gens d e (as, fam) hne]
          have hqd : queueOf (gens.set d (as, fam)) d = as.map (fun a => (fam, a)) := by
            unfold queueOf
            rw [getD_set_self gens d (as, fam) hdlt]
          have hmap : (rest ++ [d]).map (queueOf (gens.set d (as, fam)))
              = rest.map (queueOf gens) ++ [as.map (fun a => (fam, a))] := by
            rw [List.map_append, List.map_congr_left hqe]
            simp [hqd]
          rw [hmap]
          have hqd2 : queueOf gens d = (fam, a) :: as.map (fun a => (fam, a)) := by
            unfold queueOf
            rw [hq]
            simp
          rw [List.map_cons, hqd2, rrOut_cons]

/-- After a run covering every index of a live generator, all generators
are exhausted. -/
theorem runIter_final_empty :
    ∀ (gens : List Gen) (dq : List Nat),
      (∀ j, j < gens.length → (gens.getD j ([], Family.v4)).1 ≠ [] → j ∈ dq) →
      ∀ g ∈ (runIter gens dq).2, g.1 = [] := by
  suffices H : ∀ (m : Nat) (gens : List Gen) (dq : List Nat), riMeasure gens dq ≤ m →
      (∀ j, j < gens.length → (gens.getD j ([], Family.v4)).1 ≠ [] → j ∈ dq) →
      ∀ g ∈ (runIter gens dq).2, g.1 = [] by
    exact fun gens dq => H _ gens dq le_rfl
  intro m
  induction m with
  | zero =>
    intro gens dq h hcov g hg
    have := riMeasure_zero_dq gens dq (by omega)
    subst this
    rw [runIter_nil] at hg
    rcases List.mem_iff_getElem.mp hg with ⟨j, hj, rfl⟩
    by_contra hne
    have : gens.getD j ([], Family.v4) = gens[j] := by
      rw [List.getD_eq_getElem?_getD, List.getElem?_eq_getElem hj]
      rfl
    exact absurd (hcov j hj (by rw [this]; exact hne)) (List.not_mem_nil j)
  | succ m ih =>
    intro gens dq h hcov g hg
    cases dq with
    | nil =>
      rw [runIter_nil] at hg
      rcases List.mem_iff_getElem.mp hg with ⟨j, hj, rfl⟩
      by_contra hne
      have : gens.getD j ([], Family.v4) = gens[j] := by
        rw [List.getD_eq_getElem?_getD, List.getElem?_eq_getElem hj]
        rfl
      exact absurd (hcov j hj (by rw [this]; exact hne)) (List.not_mem_nil j)
    | cons d rest =>
      cases hq : gens.getD d ([], Family.v4) with
      | mk q fam =>
        cases q with
        | nil =>
          rw [runIter_front_nil gens d rest fam hq] at hg
          rw [riMeasure_front_nil] at h
          refine ih gens rest (by omega) ?_ g hg
          intro j hj hne
          rcases List.mem_cons.mp (hcov j hj hne) with h1 | h1
          · subst h1
            rw [hq] at hne
            exact absurd rfl hne
          · exact h1
        | cons a as =>
          rw [runIter_front_cons gens d rest a as fam hq] at hg
          rw [riMeasure_front_cons gens d rest a as fam hq] at h
          refine ih (gens.set d (as, fam)) (rest ++ [d]) (by omega) ?_ g hg
          intro j hj hne
          by_cases hjd : j = d
          · subst hjd
            simp
          · rw [getD_set_ne gens d j (as, fam) (fun hc => hjd hc.symm)] at hne
            have hjlen : j < gens.length := by simpa using hj
            rcases List.mem_cons.mp (hcov j hjlen hne) with h1 | h1
            · exact absurd h1 hjd
            · exact List.mem_append.mpr (Or.inl h1)

/-- Pulling from a session whose generators are all exhausted emits
nothing and leaves the state unchanged. -/
theorem runIter_all_nil :
    ∀ (gens : List Gen) (dq : List Nat), (∀ g ∈ gens, g.1 = []) →
      (runIter gens dq).1 = [] ∧ (runIter gens dq).2 = gens := by
  intro gens dq h
  induction dq with
  | nil => rw [runIter_nil]; exact ⟨rfl, rfl⟩
  | cons d rest ih =>
    have hd : (gens.getD d ([], Family.v4)).1 = [] := by
      by_cases hlt : d < gens.length
      · have : gens.getD d ([], Family.v4) = gens[d] := by
          rw [List.getD_eq_getElem?_getD, List.getElem?_eq_getElem hlt]
          rfl
        rw [this]
        exact h _ (List.getElem_mem hlt)
      · rw [getD_oob gens d (by omega)]
    have hpair : gens.getD d ([], Family.v4)
        = ([], (gens.getD d ([], Family.v4)).2) := by
      exact Prod.ext hd rfl
    rw [runIter_front_nil gens d rest _ hpair]
    exact ih

/-! ## Arithmetic facts about the partition sizer -/

theorem log2_two_pow (k : Nat) : Nat.log2 (2 ^ k) = k := by
  rw [Nat.log2_eq_log_two]
  exact Nat.log_pow (by norm_num) k

/-- The partition size of an IPv4 network, as a function of the prefix
length. -/
theorem psize_v4_formula (p b : Nat) :
    determine_partition_size ⟨Family.v4, p, b⟩ =
      if 2 ^ (32 - p) ≤ 256 then 2 ^ (32 - p)
      else 2 ^ (min (max 8 (32 - p - 8)) 10) := by
  simp only [determine_partition_size, Network.numAddresses, Family.bits, log2_two_pow]

/-- The partition size of an IPv6 network, as a function of the prefix
length. -/
theorem psize_v6_formula (p b : Nat) :
    determine_partition_size ⟨Family.v6, p, b⟩ =
      if 2 ^ (128 - p) ≤ 65536 then 2 ^ (128 - p)
      else 2 ^ (min (max 16 (128 - p - 16)) 20) := by
  simp only [determine_partition_size, Network.numAddresses, Family.bits, log2_two_pow]

/-- The partition size is always a power of two (for "small" networks it is
the address count, itself a power of two). -/
theorem psize_pow (net : Network) : ∃ j, determine_partition_size net = 2 ^ j := by
  rcases net with ⟨fam, p, b⟩
  cases fam
  · rw [psize_v4_formula]
    split
    · exact ⟨32 - p, rfl⟩
    · exact ⟨_, rfl⟩
  · rw [psize_v6_formula]
    split
    · exact ⟨128 - p, rfl⟩
    · exact ⟨_, rfl⟩

theorem pow_le_iff_le (k1 k2 : Nat) : 2 ^ k1 ≤ 2 ^ k2 ↔ k1 ≤ k2 :=
  Nat.pow_le_pow_iff_right (by norm_num)

/-- The partition size never exceeds the network's address count. -/
theorem psize_le_num (net : Network) :
    determine_partition_size net ≤ net.numAddresses := by
  rcases net with ⟨fam, p, b⟩
  cases fam
  · rw [psize_v4_formula]
    show _ ≤ 2 ^ (32 - p)
    split
    · exact le_rfl
    · rename_i hlarge
      have hk : 9 ≤ 32 - p := by
        by_contra hc
        exact hlarge (by calc 2 ^ (32 - p) ≤ 2 ^ 8 := (pow_le_iff_le _ _).mpr (by omega)
          _ = 256 := by norm_num)
      exact (pow_le_iff_le _ _).mpr (by omega)
  · rw [psize_v6_formula]
    show _ ≤ 2 ^ (128 - p)
    split
    · exact le_rfl
    · rename_i hlarge
      have hk : 17 ≤ 128 - p := by
        by_contra hc
        exact hlarge (by calc 2 ^ (128 - p) ≤ 2 ^ 16 := (pow_le_iff_le _ _).mpr (by omega)
          _ = 65536 := by norm_num)
      exact (pow_le_iff_le _ _).mpr (by omega)

/-- The partition size divides the network's address count exactly. -/
theorem psize_dvd_num (net : Network) :
    determine_partition_size net ∣ net.numAddresses := by
  rcases net with ⟨fam, p, b⟩
  cases fam
  · rw [psize_v4_formula]
    show _ ∣ 2 ^ (32 - p)
    split
    · exact dvd_rfl
    · rename_i hlarge
      have hk : 9 ≤ 32 - p := by
        by_contra hc
        exact hlarge (by calc 2 ^ (32 - p) ≤ 2 ^ 8 := (pow_le_iff_le _ _).mpr (by omega)
          _ = 256 := by norm_num)
      exact pow_dvd_pow 2 (by omega)
  · rw [psize_v6_formula]
    show _ ∣ 2 ^ (128 - p)
    split
    · exact dvd_rfl
    · rename_i hlarge
      have hk : 17 ≤ 128 - p := by
        by_contra hc
        exact hlarge (by calc 2 ^ (128 - p) ≤ 2 ^ 16 := (pow_le_iff_le _ _).mpr (by omega)
          _ = 65536 := by norm_num)
      exact pow_dvd_pow 2 (by omega)

/-- The partition size is monotone in the network's address count within a
family. -/
theorem psize_mono (n1 n2 : Network) (hf : n1.family = n2.family)
    (h : n1.numAddresses ≤ n2.numAddresses) :
    determine_partition_size n1 ≤ determine_partition_size n2 := by
  rcases n1 with ⟨f1, p1, b1⟩
  rcases n2 with ⟨f2, p2, b2⟩
  simp only at hf
  subst hf
  simp only [Network.numAddresses, Family.bits] at h
  cases f1
  · rw [psize_v4_formula, psize_v4_formula]
    have hk : 32 - p1 ≤ 32 - p2 := (pow_le_iff_le _ _).mp h
    by_cases h2 : 2 ^ (32 - p2) ≤ 256
    · rw [if_pos (le_trans h h2), if_pos h2]
      exact h
    · by_cases h1 : 2 ^ (32 - p1) ≤ 256
      · rw [if_pos h1, if_neg h2]
        calc 2 ^ (32 - p1) ≤ 256 := h1
          _ = 2 ^ 8 := by norm_num
          _ ≤ 2 ^ (min (max 8 (32 - p2 - 8)) 10) := (pow_le_iff_le _ _).mpr (by omega)
      · rw [if_neg h1, if_neg h2]
        exact (pow_le_iff_le _ _).mpr (by omega)
  · rw [psize_v6_formula, psize_v6_formula]
    have hk : 128 - p1 ≤ 128 - p2 := (pow_le_iff_le _ _).mp h
    by_cases h2 : 2 ^ (128 - p2) ≤ 65536
    · rw [if_pos (le_trans h h2), if_pos h2]
      exact h
    · by_cases h1 : 2 ^ (128 - p1) ≤ 65536
      · rw [if_pos h1, if_neg h2]
        calc 2 ^ (128 - p1) ≤ 65536 := h1
          _ = 2 ^ 16 := by norm_num
          _ ≤ 2 ^ (min (max 16 (128 - p2 - 16)) 20) := (pow_le_iff_le _ _).mpr (by omega)
      · rw [if_neg h1, if_neg h2]
        exact (pow_le_iff_le _ _).mpr (by omega)

/-- Per-family ceilings: 1024 addresses per partition for IPv4, 2^20 for
IPv6. -/
theorem psize_ceiling (net : Network) :
    (net.family = Family.v4 → determine_partition_size net ≤ 1024) ∧
    (net.family = Family.v6 → determine_partition_size net ≤ 2 ^ 20) := by
  rcases net with ⟨fam, p, b⟩
  cases fam
  · refine ⟨fun _ => ?_, by simp⟩
    rw [psize_v4_formula]
    split
    · omega
    · calc 2 ^ (min (max 8 (32 - p - 8)) 10) ≤ 2 ^ 10 := (pow_le_iff_le _ _).mpr (by omega)
        _ = 1024 := by norm_num
  · refine ⟨by simp, fun _ => ?_⟩
    rw [psize_v6_formula]
    split
    · calc 2 ^ (128 - p) ≤ 65536 := by assumption
        _ ≤ 2 ^ 20 := by norm_num
    · exact (pow_le_iff_le _ _).mpr (by omega)

/-! ## From the session construction to the queue model -/

theorem getD_map_lt {β γ : Type} (l : List β) (h : β → γ) (i : Nat) (d : γ)
    (e : β) (hi : i < l.length) : (l.map h).getD i d = h (l.getD i e) := by
  induction l generalizing i with
  | nil => simp at hi
  | cons x xs ih =>
    cases i with
    | zero => rfl
    | succ i => exact ih i (by simpa using hi)

theorem map_range_getD {β γ : Type} (x0 : β) (l : List β) (f : β → γ) :
    (List.range l.length).map (fun i => f (l.getD i x0)) = l.map f := by
  induction l with
  | nil => rfl
  | cons x xs ih =>
    rw [List.length_cons, List.range_succ_eq_map, List.map_cons, List.map_map]
    have htl : (List.range xs.length).map ((fun i => f ((x :: xs).getD i x0)) ∘ Nat.succ)
        = xs.map f := by
      rw [← ih]
      apply List.map_congr_left
      intro i hi
      rfl
    rw [htl]
    rfl

/-- Splitting `__init__` into the parsing pass and the generator-creation
pass. -/
theorem initNetworks_eq (cidrs : List String) :
    initNetworks cidrs = (parseNetworks cidrs).map
      (List.map (fun net => (create_generator net, net.family))) := by
  induction cidrs with
  | nil => rfl
  | cons c cs ih =>
    simp only [initNetworks, parseNetworks]
    cases hc : ip_network c with
    | error e => rfl
    | ok net =>
      cases hcs : parseNetworks cs with
      | error e =>
        rw [hcs] at ih
        rw [ih]
        rfl
      | ok nets =>
        rw [hcs] at ih
        rw [ih]
        rfl

/-- `__init__` fails exactly when the parse of some input string fails. -/
theorem initNetworks_error_iff (cidrs : List String) :
    (∃ e, initNetworks cidrs = .error e) ↔
      (∃ c ∈ cidrs, ∃ e, ip_network c = .error e) := by
  induction cidrs with
  | nil =>
    constructor
    · rintro ⟨e, he⟩
      cases he
    · rintro ⟨c, hc, _⟩
      cases hc
  | cons c cs ih =>
    simp only [initNetworks]
    constructor
    · intro he
      cases hc : ip_network c with
      | error e => exact ⟨c, by simp, e, hc⟩
      | ok net =>
        cases hcs : initNetworks cs with
        | error e =>
          rcases ih.mp ⟨e, hcs⟩ with ⟨c2, hc2, he2⟩
          exact ⟨c2, by simp [hc2], he2⟩
        | ok gens =>
          rcases he with ⟨e, he⟩
          rw [hc, hcs] at he
          cases he
    · rintro ⟨c2, hc2, e2, he2⟩
      rcases List.mem_cons.mp hc2 with rfl | hmem
      · rw [he2]
        refine ⟨e2, ?_⟩
        rfl
      · cases hc : ip_network c with
        | error e =>
          refine ⟨e, ?_⟩
          rfl
        | ok net =>
          rcases ih.mpr ⟨c2, hmem, e2, he2⟩ with ⟨e, he⟩
          rw [he]
          refine ⟨e, ?_⟩
          rfl

/-- A successful construction runs the deque loop over the per-network
queues in construction order. -/
theorem netenumOut_ok (cidrs : List String) (nets : List Network)
    (h : parseNetworks cidrs = .ok nets) :
    netenumOut cidrs = .ok (rrOut (famQueues nets)) := by
  unfold netenumOut
  rw [initNetworks_eq, h]
  simp only [Except.map]
  congr 1
  rw [runIter_fst_eq_rrOut _ _ (List.nodup_range _)]
  congr 1
  have hlen : (nets.map (fun net => (create_generator net, net.family))).length
      = nets.length := by simp
  rw [hlen]
  have hpt : ∀ i ∈ List.range nets.length,
      queueOf (nets.map (fun net => (create_generator net, net.family))) i
      = (fun net => (create_generator net).map (fun a => (net.family, a)))
          (nets.getD i default) := by
    intro i hi
    have hi' : i < nets.length := List.mem_range.mp hi
    unfold queueOf
    rw [getD_map_lt nets (fun net => (create_generator net, net.family)) i
      ([], Family.v4) default hi']
  rw [List.map_congr_left hpt]
  unfold famQueues
  exact map_range_getD default nets
    (fun net => (create_generator net).map (fun a => (net.family, a)))

/-- The family-tagged queues are the index-tagged queues with each index
replaced by the family of the network it points to. -/
theorem famQueues_eq_tagged (nets : List Network) :
    famQueues nets = (taggedQueues nets).map
      (List.map (fun x : Nat × Nat => ((nets.getD x.1 default).family, x.2))) := by
  unfold famQueues taggedQueues
  rw [List.map_map]
  rw [← map_range_getD default nets
    (fun net => (create_generator net).map (fun a => (net.family, a)))]
  apply List.map_congr_left
  intro i hi
  simp only [Function.comp]
  rw [List.map_map]
  apply List.map_congr_left
  intro a ha
  rfl

/-- A successful construction emits the interleaving of the index-tagged
queues, with each tag replaced by the family of its network. -/
theorem netenumOut_tagged (cidrs : List String) (nets : List Network)
    (h : parseNetworks cidrs = .ok nets) :
    netenumOut cidrs = .ok ((rrOut (taggedQueues nets)).map
      (fun x : Nat × Nat => ((nets.getD x.1 default).family, x.2))) := by
  rw [netenumOut_ok cidrs nets h, famQueues_eq_tagged, rrOut_map]

theorem taggedQueues_length_sum (nets : List Network) :
    (((taggedQueues nets).map List.length).sum) = (nets.map Network.numAddresses).sum := by
  unfold taggedQueues
  rw [List.map_map]
  have hpt : ∀ i ∈ List.range nets.length,
      (List.length ∘ fun i => ((create_generator (nets.getD i default)).map
        (fun a => (i, a)))) i
      = (fun net => net.numAddresses) (nets.getD i default) := by
    intro i hi
    simp [create_generator_eq]
  rw [List.map_congr_left hpt, map_range_getD]

theorem flatten_single {γ : Type} (n i : Nat) (hi : i < n) (g : Nat → List γ)
    (h : ∀ j, j < n → j ≠ i → g j = []) :
    ((List.range n).map g).flatten = g i := by
  induction n with
  | zero => omega
  | succ n ih =>
    rw [List.range_succ, List.map_append, List.flatten_append]
    simp only [List.map_cons, List.map_nil, List.flatten_cons, List.flatten_nil,
      List.append_nil]
    by_cases hin : i = n
    · subst hin
      have hz : ((List.range i).map g).flatten = [] := by
        rw [List.flatten_eq_nil_iff]
        intro l hl
        rcases List.mem_map.mp hl with ⟨j, hj, rfl⟩
        have := List.mem_range.mp hj
        exact h j (by omega) (by omega)
      rw [hz, List.nil_append]
    · have hn : g n = [] := h n (by omega) (fun hc => hin hc.symm)
      rw [hn, List.append_nil]
      exact ih (by omega) (fun j hj hne => h j (by omega) hne)

theorem tagged_mem_tag (nets : List Network) (q : List (Nat × Nat))
    (hq : q ∈ taggedQueues nets) :
    ∃ j, j < nets.length ∧
      q = (create_generator (nets.getD j default)).map (fun a => (j, a)) := by
  unfold taggedQueues at hq
  rcases List.mem_map.mp hq with ⟨j, hj, rfl⟩
  exact ⟨j, List.mem_range.mp hj, rfl⟩

/-- Filtering the tagged output by originating network `i` recovers
network `i`'s queue. -/
theorem rrOut_tagged_filter (nets : List Network) (i : Nat) (hi : i < nets.length) :
    (rrOut (taggedQueues nets)).filter (fun x => x.1 == i)
      = (create_generator (nets.getD i default)).map (fun a => (i, a)) := by
  have hhom : ∀ q ∈ taggedQueues nets,
      (∀ x ∈ q, (x.1 == i) = true) ∨ (∀ x ∈ q, (x.1 == i) = false) := by
    intro q hq
    rcases tagged_mem_tag nets q hq with ⟨j, hj, rfl⟩
    by_cases hji : j = i
    · subst hji
      left
      intro x hx
      rcases List.mem_map.mp hx with ⟨a, ha, rfl⟩
      simp
    · right
      intro x hx
      rcases List.mem_map.mp hx with ⟨a, ha, rfl⟩
      simp [hji]
  have hpair : (taggedQueues nets).Pairwise
      (fun q1 q2 => (∀ x ∈ q1, (x.1 == i) = false) ∨ (∀ x ∈ q2, (x.1 == i) = false)) := by
    unfold taggedQueues
    rw [List.pairwise_map]
    refine (List.pairwise_lt_range nets.length).imp ?_
    intro j1 j2 hlt
    by_cases hj1 : j1 = i
    · right
      intro x hx
      rcases List.mem_map.mp hx with ⟨a, ha, rfl⟩
      simp
      omega
    · left
      intro x hx
      rcases List.mem_map.mp hx with ⟨a, ha, rfl⟩
      simp [hj1]
  rw [rrOut_filter _ _ hhom hpair]
  unfold taggedQueues
  rw [List.map_map]
  rw [flatten_single nets.length i hi _ ?_]
  · simp only [Function.comp]
    rw [List.filter_eq_self.mpr]
    intro x hx
    rcases List.mem_map.mp hx with ⟨a, ha, rfl⟩
    simp
  · intro j hj hne
    simp only [Function.comp]
    rw [List.filter_eq_nil_iff.mpr]
    intro x hx
    rcases List.mem_map.mp hx with ⟨a, ha, rfl⟩
    simp [hne]

/-- The tagged output contains no repeated pair: within one originating
network no address is emitted twice. -/
theorem rrOut_tagged_nodup (nets : List Network) :
    (rrOut (taggedQueues nets)).Nodup := by
  rw [(rrOut_perm (taggedQueues nets)).nodup_iff]
  rw [List.nodup_flatten]
  constructor
  · intro q hq
    rcases tagged_mem_tag nets q hq with ⟨j, hj, rfl⟩
    rw [create_generator_eq]
    refine List.Nodup.map ?_ (List.nodup_range' _ _)
    intro a b hab
    injection hab with h1 h2
  · unfold taggedQueues
    rw [List.pairwise_map]
    refine (List.pairwise_lt_range nets.length).imp ?_
    intro j1 j2 hlt
    intro x hx1 hx2
    rcases List.mem_map.mp hx1 with ⟨a, ha, rfl⟩
    rcases List.mem_map.mp hx2 with ⟨b, hb, hba⟩
    injection hba with h1 h2
    omega

/-! ## The claims -/

set_option maxRecDepth 10000

/-- C4: for every valid IPv4 network, `determine_partition_size` returns
the exact address count when the count is at most 256 and otherwise
`2^clamp(log2(count) - 8, 8, 10)`; for every valid IPv6 network it returns
the exact count when at most 65536 and otherwise
`2^clamp(log2(count) - 16, 16, 20)`; in particular 256 for
`192.168.0.0/24`, a value in {256, 512, 1024} for `10.0.0.0/8`, 256 for
`2001:db8::/120`, and a value at most `2^20` for `2001:db8::/32`. -/
theorem claim_C4 :
    (∀ p b, p ≤ 32 →
      determine_partition_size ⟨Family.v4, p, b⟩ =
        if 2 ^ (32 - p) ≤ 256 then 2 ^ (32 - p)
        else 2 ^ (min (max 8 (32 - p - 8)) 10)) ∧
    (∀ p b, p ≤ 128 →
      determine_partition_size ⟨Family.v6, p, b⟩ =
        if 2 ^ (128 - p) ≤ 65536 then 2 ^ (128 - p)
        else 2 ^ (min (max 16 (128 - p - 16)) 20)) ∧
    ((ip_network "192.168.0.0/24").map determine_partition_size = .ok 256) ∧
    (∃ v, (ip_network "10.0.0.0/8").map determine_partition_size = .ok v ∧
      (v = 256 ∨ v = 512 ∨ v = 1024)) ∧
    ((ip_network "2001:db8::/120").map determine_partition_size = .ok 256) ∧
    (∃ v, (ip_network "2001:db8::/32").map determine_partition_size = .ok v ∧
      v ≤ 2 ^ 20) := by
  have h24 : ip_network "192.168.0.0/24" = .ok ⟨Family.v4, 24, 3232235520⟩ := by decide
  have h8 : ip_network "10.0.0.0/8" = .ok ⟨Family.v4, 8, 167772160⟩ := by decide
  have h120 : ip_network "2001:db8::/120"
      = .ok ⟨Family.v6, 120, 42540766411282592856903984951653826560⟩ := by decide
  have h32 : ip_network "2001:db8::/32"
      = .ok ⟨Family.v6, 32, 42540766411282592856903984951653826560⟩ := by decide
  refine ⟨fun p b _ => psize_v4_formula p b, fun p b _ => psize_v6_formula p b,
    ?_, ?_, ?_, ?_⟩
  · rw [h24]
    simp only [Except.map]
    rw [psize_v4_formula]
    decide
  · refine ⟨1024, ?_, by decide⟩
    rw [h8]
    simp only [Except.map]
    rw [psize_v4_formula]
    decide
  · rw [h120]
    simp only [Except.map]
    rw [psize_v6_formula]
    decide
  · refine ⟨2 ^ 20, ?_, le_rfl⟩
    rw [h32]
    simp only [Except.map]
    rw [psize_v6_formula]
    decide

theorem claim_C4_witness :
    determine_partition_size ⟨Family.v4, 8, 167772160⟩ = 1024 ∧
    determine_partition_size ⟨Family.v6, 32, 42540766411282592856903984951653826560⟩
      = 2 ^ 20 :=
  ⟨(claim_C4.1 8 167772160 (by decide)).trans (by decide),
   (claim_C4.2.1 32 42540766411282592856903984951653826560 (by decide)).trans (by decide)⟩

/-- C7: the cooperative (asynchronous) iteration mode emits exactly the
same addresses in the same order as the blocking mode, over any session
state and deque; the `asyncio.sleep(0)` only cedes control. -/
theorem claim_C7 (gens : List Gen) (dq : List Nat) :
    arunIter gens dq = runIter gens dq :=
  arunIter_eq_runIter gens dq

/-- C8: the partition size equals the address count for small networks
(at most 256 addresses for IPv4, 65536 for IPv6), is always a power of
two, is monotone in the address count within a family, and is bounded by
1024 for IPv4 and by `2^20` for IPv6. -/
theorem claim_C8 (net : Network) :
    (net.family = Family.v4 → net.numAddresses ≤ 256 →
      determine_partition_size net = net.numAddresses) ∧
    (net.family = Family.v6 → net.numAddresses ≤ 65536 →
      determine_partition_size net = net.numAddresses) ∧
    (∃ j, determine_partition_size net = 2 ^ j) ∧
    (∀ n2 : Network, net.family = n2.family → net.numAddresses ≤ n2.numAddresses →
      determine_partition_size net ≤ determine_partition_size n2) ∧
    (net.family = Family.v4 → determine_partition_size net ≤ 1024) ∧
    (net.family = Family.v6 → determine_partition_size net ≤ 2 ^ 20) := by
  refine ⟨?_, ?_, psize_pow net, fun n2 => psize_mono net n2,
    (psize_ceiling net).1, (psize_ceiling net).2⟩
  · rcases net with ⟨fam, p, b⟩
    cases fam
    · intro _ hsmall
      simp only [Network.numAddresses, Family.bits] at hsmall ⊢
      rw [psize_v4_formula, if_pos hsmall]
    · intro hf
      cases hf
  · rcases net with ⟨fam, p, b⟩
    cases fam
    · intro hf
      cases hf
    · intro _ hsmall
      simp only [Network.numAddresses, Family.bits] at hsmall ⊢
      rw [psize_v6_formula, if_pos hsmall]

theorem claim_C8_witness :
    determine_partition_size ⟨Family.v4, 24, 3232235520⟩
      = Network.numAddresses ⟨Family.v4, 24, 3232235520⟩ ∧
    determine_partition_size ⟨Family.v4, 24, 3232235520⟩
      ≤ determine_partition_size ⟨Family.v4, 8, 167772160⟩ :=
  ⟨(claim_C8 ⟨Family.v4, 24, 3232235520⟩).1 rfl (by decide),
   (claim_C8 ⟨Family.v4, 24, 3232235520⟩).2.2.2.1 ⟨Family.v4, 8, 167772160⟩ rfl (by decide)⟩

/-- C9: a session is not restartable: a complete iteration leaves every
generator exhausted, and any subsequent iteration over the same session
state emits no addresses (and leaves the state unchanged).  The generator
states are shared by all iterators of the session, which is why the model
threads them through `runIter`. -/
theorem claim_C9 (gens : List Gen) :
    (∀ g ∈ (runIter gens (List.range gens.length)).2, g.1 = []) ∧
    (runIter (runIter gens (List.range gens.length)).2
        (List.range (runIter gens (List.range gens.length)).2.length)).1 = [] ∧
    (runIter (runIter gens (List.range gens.length)).2
        (List.range (runIter gens (List.range gens.length)).2.length)).2
      = (runIter gens (List.range gens.length)).2 := by
  have h1 : ∀ g ∈ (runIter gens (List.range gens.length)).2, g.1 = [] :=
    runIter_final_empty gens (List.range gens.length)
      (fun j hj _ => List.mem_range.mpr hj)
  have h2 := runIter_all_nil (runIter gens (List.range gens.length)).2
    (List.range (runIter gens (List.range gens.length)).2.length) h1
  exact ⟨h1, h2.1, h2.2⟩

theorem claim_C9_witness :
    (runIter (runIter [([1], Family.v4)] (List.range 1)).2
        (List.range (runIter [([1], Family.v4)] (List.range 1)).2.length)).1 = [] :=
  (claim_C9 [([1], Family.v4)]).2.1

/-- C10: the partition size is at least 1, at most the address count, and
divides it exactly; the number of partitions times the partition size is
exactly the address count, the clipping of a partition's upper bound to
`broadcast_address + 1` never shortens a partition, and consequently the
generator yields exactly the network's address range. -/
theorem claim_C10 (net : Network) :
    1 ≤ determine_partition_size net ∧
    determine_partition_size net ≤ net.numAddresses ∧
    determine_partition_size net ∣ net.numAddresses ∧
    ((net.numAddresses + determine_partition_size net - 1) / determine_partition_size net)
        * determine_partition_size net = net.numAddresses ∧
    (∀ i, i < (net.numAddresses + determine_partition_size net - 1)
        / determine_partition_size net →
      min (net.netBase + i * determine_partition_size net + determine_partition_size net)
          (net.broadcast + 1)
        = net.netBase + i * determine_partition_size net + determine_partition_size net) ∧
    create_generator net = List.range' net.netBase net.numAddresses := by
  have hps := psize_pos net
  have hnum := numAddresses_pos net
  rcases psize_dvd_num net with ⟨c, hc⟩
  have h4 : ((net.numAddresses + determine_partition_size net - 1)
      / determine_partition_size net) * determine_partition_size net
      = net.numAddresses := by
    have hsplit : net.numAddresses + determine_partition_size net - 1
        = determine_partition_size net * c + (determine_partition_size net - 1) := by
      omega
    rw [hsplit, Nat.mul_add_div hps, Nat.div_eq_of_lt (by omega), Nat.add_zero]
    rw [Nat.mul_comm]
    exact hc.symm
  refine ⟨hps, psize_le_num net, ⟨c, hc⟩, h4, ?_, create_generator_eq net⟩
  intro i hi
  have hmul : (i + 1) * determine_partition_size net
      = i * determine_partition_size net + determine_partition_size net := by ring
  have hle : (i + 1) * determine_partition_size net
      ≤ ((net.numAddresses + determine_partition_size net - 1)
          / determine_partition_size net) * determine_partition_size net :=
    Nat.mul_le_mul_right _ (by omega)
  rw [h4] at hle
  have hb : net.broadcast + 1 = net.netBase + net.numAddresses := by
    unfold Network.broadcast
    omega
  omega

theorem claim_C10_witness :
    min (3232235520 + 0 * determine_partition_size ⟨Family.v4, 30, 3232235520⟩
          + determine_partition_size ⟨Family.v4, 30, 3232235520⟩)
        (Network.broadcast ⟨Family.v4, 30, 3232235520⟩ + 1)
      = 3232235520 + 0 * determine_partition_size ⟨Family.v4, 30, 3232235520⟩
          + determine_partition_size ⟨Family.v4, 30, 3232235520⟩ :=
  (claim_C10 ⟨Family.v4, 30, 3232235520⟩).2.2.2.2.1 0 (by decide)

/-- C1 as stated is false: the claim quantifies over every list of valid
CIDR strings and asserts that no address is emitted twice, but listing the
same (or an overlapping) network twice emits its addresses once per
occurrence.  With input `["192.168.0.0/32", "192.168.0.0/32"]` the address
192.168.0.0 (= 3232235520) is emitted twice. -/
theorem claim_C1_counterexample :
    netenumOut ["192.168.0.0/32", "192.168.0.0/32"]
      = .ok [(Family.v4, 3232235520), (Family.v4, 3232235520)] ∧
    ¬ ([(Family.v4, 3232235520), (Family.v4, 3232235520)] : List (Family × Nat)).Nodup := by
  exact ⟨by decide, by decide⟩

/-- C1 (amended): for every list of valid CIDR strings, the complete
iteration emits the interleaving of the per-network queues; the output
length is the sum of the networks' address counts; no tagged pair is
emitted twice (no address is emitted twice by the same originating
network; distinct overlapping networks may emit equal addresses); and
filtering by originating network yields that network's full address
sequence in ascending order. -/
theorem claim_C1 (cidrs : List String) (nets : List Network)
    (h : parseNetworks cidrs = .ok nets) :
    netenumOut cidrs = .ok ((rrOut (taggedQueues nets)).map
      (fun x => ((nets.getD x.1 default).family, x.2))) ∧
    (rrOut (taggedQueues nets)).length = (nets.map Network.numAddresses).sum ∧
    (rrOut (taggedQueues nets)).Nodup ∧
    (∀ i, i < nets.length →
      ((rrOut (taggedQueues nets)).filter (fun x => x.1 == i)).map (fun x => x.2)
        = List.range' (nets.getD i default).netBase (nets.getD i default).numAddresses) := by
  refine ⟨netenumOut_tagged cidrs nets h, ?_, rrOut_tagged_nodup nets, ?_⟩
  · rw [rrOut_length, taggedQueues_length_sum]
  · intro i hi
    rw [rrOut_tagged_filter nets i hi, List.map_map]
    rw [show ((fun x : Nat × Nat => x.2) ∘ fun a => (i, a)) = id from rfl, List.map_id]
    exact create_generator_eq _

theorem claim_C1_witness :
    (rrOut (taggedQueues [⟨Family.v4, 31, 3232235520⟩])).length
      = ([⟨Family.v4, 31, 3232235520⟩].map Network.numAddresses).sum :=
  (claim_C1 ["192.168.0.0/31"] [⟨Family.v4, 31, 3232235520⟩] (by decide)).2.1

/-- C2: a single valid CIDR string enumerates to exactly the network's
`2^(bits - prefixlen)` addresses, in strictly increasing order, from the
base address through the last address with no gaps; in particular
`["192.168.0.0/30"]` renders to exactly the four addresses 192.168.0.0
through 192.168.0.3 in order. -/
theorem claim_C2 (s : String) (net : Network) (h : ip_network s = .ok net) :
    netenumOut [s] = .ok ((List.range' net.netBase net.numAddresses).map
      (fun a => (net.family, a))) ∧
    net.numAddresses = 2 ^ (net.family.bits - net.plen) ∧
    (List.range' net.netBase net.numAddresses).length = net.numAddresses ∧
    List.Pairwise (fun a b => a < b) (List.range' net.netBase net.numAddresses) ∧
    (netenumOut ["192.168.0.0/30"]).map (fun o => o.map renderAddress)
      = .ok ["192.168.0.0", "192.168.0.1", "192.168.0.2", "192.168.0.3"] := by
  have hp : parseNetworks [s] = .ok [net] := by
    unfold parseNetworks
    rw [h]
    rfl
  refine ⟨?_, rfl, List.length_range' _ _ _, List.pairwise_lt_range' _ _, by decide⟩
  rw [netenumOut_ok [s] [net] hp]
  rw [show famQueues [net]
    = [(create_generator net).map (fun a => (net.family, a))] from rfl]
  rw [rrOut_singleton, create_generator_eq]

theorem claim_C2_witness :
    netenumOut ["192.168.0.0/30"]
      = .ok ((List.range' 3232235520
          (Network.numAddresses ⟨Family.v4, 30, 3232235520⟩)).map
        (fun a => (Family.v4, a))) :=
  (claim_C2 "192.168.0.0/30" ⟨Family.v4, 30, 3232235520⟩ (by decide)).1

/-- C3: emission is round-robin in construction order: over live queues a
full round emits one value per queue (the heads, in order) and continues
on the tails, so the first `N` outputs are the `N` queue heads; an
exhausted queue reaching the front of the rotation is removed and the
relative order of the remaining queues is preserved; in particular
`["192.168.0.0/24", "2001:db8::/120"]` emits "192.168.0.0" first, then
"2001:db8::", with total output length 512. -/
theorem claim_C3 :
    (∀ qs : List (List (Family × Nat)), (∀ q ∈ qs, q ≠ []) →
      rrOut qs = qs.map List.headI ++ rrOut (qs.map List.tail) ∧
      (rrOut qs).take qs.length = qs.map List.headI) ∧
    (∀ rest : List (List (Family × Nat)),
      rrOut (([] : List (Family × Nat)) :: rest) = rrOut rest) ∧
    (netenumOut ["192.168.0.0/24", "2001:db8::/120"]).map List.length = .ok 512 ∧
    (netenumOut ["192.168.0.0/24", "2001:db8::/120"]).map
        (fun o => (o.take 2).map renderAddress)
      = .ok ["192.168.0.0", "2001:db8::"] := by
  exact ⟨fun qs h => ⟨rrOut_round qs h, rrOut_take_heads qs h⟩,
    fun rest => rrOut_nil_cons rest, by decide, by decide⟩

theorem claim_C3_witness :
    (rrOut [[((Family.v4 : Family), 7)], [(Family.v6, 9)]]).take 2
      = [((Family.v4 : Family), 7), (Family.v6, 9)] :=
  ((claim_C3.1 [[(Family.v4, 7)], [(Family.v6, 9)]] (by decide)).2)

/-- C5 as stated is false: the source calls `ipaddress.ip_network(cidr)`
with the default `strict=True`, which rejects a CIDR string whose host
bits are not zero instead of normalizing it; `"192.168.0.1/24"` is a
syntactically valid CIDR string with a valid address and prefix length,
yet session construction fails. -/
theorem claim_C5_counterexample :
    ip_network "192.168.0.1/24" = .error "has host bits set" ∧
    initNetworks ["192.168.0.1/24"] = .error "has host bits set" := by
  exact ⟨by decide, by decide⟩

/-- C5 (amended): construction is strict: an address/prefix pair with a
nonzero host bit raises, and one with zero host bits constructs the
network unchanged, whose enumeration then starts from the base address. -/
theorem claim_C5 (addrInt plen : Nat) :
    (addrInt % 2 ^ (32 - plen) ≠ 0 →
      ipv4NetworkStrict addrInt plen = .error (.value "has host bits set")) ∧
    (addrInt % 2 ^ (32 - plen) = 0 →
      ipv4NetworkStrict addrInt plen = .ok ⟨Family.v4, plen, addrInt⟩ ∧
      (create_generator ⟨Family.v4, plen, addrInt⟩).head? = some addrInt) ∧
    (addrInt % 2 ^ (128 - plen) ≠ 0 →
      ipv6NetworkStrict addrInt plen = .error (.value "has host bits set")) ∧
    (addrInt % 2 ^ (128 - plen) = 0 →
      ipv6NetworkStrict addrInt plen = .ok ⟨Family.v6, plen, addrInt⟩ ∧
      (create_generator ⟨Family.v6, plen, addrInt⟩).head? = some addrInt) ∧
    ip_network "192.168.0.0/24" = .ok ⟨Family.v4, 24, 3232235520⟩ ∧
    (netenumOut ["192.168.0.0/24"]).map (fun o => o.head?)
      = .ok (some (Family.v4, 3232235520)) := by
  have hhead : ∀ net : Network, (create_generator net).head? = some net.netBase := by
    intro net
    rw [create_generator_eq]
    obtain ⟨m, hm⟩ : ∃ m, net.numAddresses = m + 1 :=
      ⟨net.numAddresses - 1, by have := numAddresses_pos net; omega⟩
    rw [hm]
    rfl
  refine ⟨?_, ?_, ?_, ?_, by decide, by decide⟩
  · intro hbits
    unfold ipv4NetworkStrict
    rw [if_pos hbits]
  · intro hbits
    refine ⟨?_, hhead _⟩
    unfold ipv4NetworkStrict
    rw [if_neg (by omega)]
  · intro hbits
    unfold ipv6NetworkStrict
    rw [if_pos hbits]
  · intro hbits
    refine ⟨?_, hhead _⟩
    unfold ipv6NetworkStrict
    rw [if_neg (by omega)]

theorem claim_C5_witness :
    ipv4NetworkStrict 3232235520 24 = .ok ⟨Family.v4, 24, 3232235520⟩ :=
  ((claim_C5 3232235520 24).2.1 (by decide)).1

/-- C6: session construction fails exactly when some input string fails to
parse (the first failure aborts the whole construction, producing no
session); once construction succeeds the pull phase is a total computation
of the finite output and no error can occur; in particular `["invalid"]`
fails at construction and produces no addresses. -/
theorem claim_C6 (cidrs : List String) :
    ((∃ e, initNetworks cidrs = .error e) ↔
      (∃ c ∈ cidrs, ∃ e, ip_network c = .error e)) ∧
    (∀ gens, initNetworks cidrs = .ok gens →
      netenumOut cidrs = .ok ((runIter gens (List.range gens.length)).1)) ∧
    initNetworks ["invalid"] = .error "does not appear to be an IPv4 or IPv6 network" ∧
    netenumOut ["invalid"] = .error "does not appear to be an IPv4 or IPv6 network" := by
  refine ⟨initNetworks_error_iff cidrs, ?_, by decide, by decide⟩
  intro gens hg
  unfold netenumOut
  rw [hg]
  rfl

theorem claim_C6_witness : netenumOut [] = .ok [] :=
  (claim_C6 []).2.1 [] rfl

end Netenum
